import Mathlib

/-!
Verification development for the Gisquick QGIS publishing plugin
(webgisplugin.py).

The file shallowly embeds the plugin logic in Lean:
  * map scales and tile resolutions are exact rationals (the Python code
    computes with Decimal and int);
  * host-application objects (map layers, the layer tree, the project
    state) become explicit Lean structures;
  * Python functions that can raise return Option.

The arithmetic helpers scales_to_resolutions, resolutions_to_scales and
to_decimal_array live in utils.py, which is not part of the sources at
hand; they are modelled from the specification (a scale ratio and a tile
resolution are interconvertible given the map unit and a fixed DPI of 96)
and are marked as such below.  Everything else is translated directly
from webgisplugin.py.
-/

/-- Map units of the project, as enumerated by WebGisPlugin.map_units
(which maps the host canvas unit codes 0, 1, 2, 3, 7 to the names
meters, feet, degrees, unknown, miles). -/
inductive MapUnit where
  | meters
  | feet
  | degrees
  | unknown
  | miles
deriving DecidableEq

/-- Modelled from the spec: the number of inches in one map unit, the
per-unit constant of the scale/resolution conversion helpers of
utils.py (a module that is absent from the sources at hand).  The exact
constants are the standard cartographic values; the proofs below only
use their positivity. -/
def inchesPerUnit : MapUnit → ℚ
  | .meters => 3937 / 100
  | .feet => 12
  | .degrees => 4374754
  | .unknown => 1
  | .miles => 63360

/-- Modelled from the spec: the factor relating a map scale to a tile
resolution at the fixed DPI of 96, namely DPI times inches per map
unit. -/
def resFactor (u : MapUnit) : ℚ := 96 * inchesPerUnit u

theorem resFactor_pos (u : MapUnit) : 0 < resFactor u := by
  cases u <;> norm_num [resFactor, inchesPerUnit]

/-- Modelled from the spec: utils.scales_to_resolutions converts map
scales to tile resolutions with fixed DPI 96, dividing each scale by the
unit factor.  (WebGisPlugin.scales_to_resolutions forwards to it with
the map units of the project.) -/
def scales_to_resolutions (scales : List ℚ) (units : MapUnit) : List ℚ :=
  scales.map (fun scale => scale / resFactor units)

/-- Modelled from the spec: utils.resolutions_to_scales converts tile
resolutions back to integer map scales with fixed DPI 96, multiplying by
the unit factor and rounding to the nearest integer.
(WebGisPlugin.resolutions_to_scales forwards to it with the map units of
the project.) -/
def resolutions_to_scales (resolutions : List ℚ) (units : MapUnit) : List ℤ :=
  resolutions.map (fun res => round (res * resFactor units))

/-- Layer kinds of the host application (QgsMapLayer.LayerType); the
plugin only distinguishes VectorLayer and RasterLayer, every other kind
falls through its predicates. -/
inductive LayerType where
  | vector
  | raster
  | plugin
  | mesh
deriving DecidableEq

/-- The slice of the host QgsMapLayer object observed by the plugin:
identifier, layer kind, data provider name, the resolutions property of
the data provider (absent for non-tiled providers), and the scale-based
visibility settings. -/
structure Layer where
  id : String
  ltype : LayerType
  providerType : String
  resolutions : Option (List ℚ)
  hasScaleBasedVisibility : Bool
  maximumScale : ℚ
  minimumScale : ℚ
deriving DecidableEq

/-- WebGisPlugin.is_overlay_layer_for_publish: a vector layer, or a
raster layer whose provider is not "wms". -/
def is_overlay_layer_for_publish (layer : Layer) : Bool :=
  layer.ltype == LayerType.vector ||
    (layer.ltype == LayerType.raster && layer.providerType != "wms")

/-- WebGisPlugin.is_base_layer_for_publish: a raster layer whose
provider is "wms". -/
def is_base_layer_for_publish (layer : Layer) : Bool :=
  layer.ltype == LayerType.raster && layer.providerType == "wms"

/-- WebGisPlugin.filter_visible_resolutions: when the layer has
scale-based visibility, keep the resolutions from the converted maximum
scale (exclusive) down to the converted minimum scale (inclusive);
otherwise return the input unchanged.  The wildcard branch is
unreachable: scales_to_resolutions maps a two-element list to a
two-element list. -/
def filter_visible_resolutions (resolutions : List ℚ) (layer : Layer)
    (units : MapUnit) : List ℚ :=
  if layer.hasScaleBasedVisibility then
    match scales_to_resolutions [layer.maximumScale, layer.minimumScale] units with
    | [max_res_exclusive, min_res_inclusive] =>
        resolutions.filter
          (fun res => decide (min_res_inclusive ≤ res) && decide (res < max_res_exclusive))
    | _ => resolutions
  else resolutions

/-- C4: is_base_layer_for_publish holds exactly for raster layers whose
provider type is "wms"; layers of any other kind or provider are not
base layers. -/
theorem is_base_layer_for_publish_iff (layer : Layer) :
    is_base_layer_for_publish layer = true ↔
      layer.ltype = LayerType.raster ∧ layer.providerType = "wms" := by
  simp [is_base_layer_for_publish]

/-- C5: is_overlay_layer_for_publish holds exactly for vector layers and
for raster layers whose provider type is not "wms"; consequently no
layer is both an overlay layer and a base layer. -/
theorem is_overlay_layer_for_publish_iff (layer : Layer) :
    (is_overlay_layer_for_publish layer = true ↔
      layer.ltype = LayerType.vector ∨
        (layer.ltype = LayerType.raster ∧ layer.providerType ≠ "wms")) ∧
    ¬(is_overlay_layer_for_publish layer = true ∧
        is_base_layer_for_publish layer = true) := by
  constructor
  · simp [is_overlay_layer_for_publish]
  · rintro ⟨ho, hb⟩
    rw [is_base_layer_for_publish_iff] at hb
    simp [is_overlay_layer_for_publish, hb.1, hb.2] at ho

/-- C7: with scale-based visibility off, filter_visible_resolutions is
the identity; with it on, it keeps exactly the input resolutions res
with min_res ≤ res < max_res, where max_res and min_res are the
conversions of the maximum and minimum scales of the layer, in input
order (List.filter preserves order). -/
theorem filter_visible_resolutions_spec (resolutions : List ℚ) (layer : Layer)
    (units : MapUnit) :
    (layer.hasScaleBasedVisibility = false →
      filter_visible_resolutions resolutions layer units = resolutions) ∧
    (∀ max_res min_res : ℚ, layer.hasScaleBasedVisibility = true →
      scales_to_resolutions [layer.maximumScale, layer.minimumScale] units =
        [max_res, min_res] →
      filter_visible_resolutions resolutions layer units =
        resolutions.filter (fun res => decide (min_res ≤ res ∧ res < max_res))) := by
  constructor
  · intro h
    simp [filter_visible_resolutions, h]
  · intro max_res min_res h hconv
    simp only [filter_visible_resolutions, h, if_true, hconv]
    apply List.filter_congr
    intro res _
    by_cases h1 : min_res ≤ res <;> by_cases h2 : res < max_res <;> simp [h1, h2]

/-- C7 witness: a concrete layer with scale-based visibility in feet;
the maximum scale 2304 converts to resolution 2 and the minimum scale
1152 to resolution 1, so of the resolutions [1/2, 1, 3/2, 2, 3] exactly
1 and 3/2 survive. -/
theorem filter_visible_resolutions_spec_witness :
    filter_visible_resolutions [1/2, 1, 3/2, 2, 3]
      { id := "a", ltype := LayerType.raster, providerType := "wms",
        resolutions := none, hasScaleBasedVisibility := true,
        maximumScale := 2304, minimumScale := 1152 } MapUnit.feet =
      [1, 3/2] := by
  rw [(filter_visible_resolutions_spec [1/2, 1, 3/2, 2, 3]
      { id := "a", ltype := LayerType.raster, providerType := "wms",
        resolutions := none, hasScaleBasedVisibility := true,
        maximumScale := 2304, minimumScale := 1152 } MapUnit.feet).2 2 1 rfl
      (by norm_num [scales_to_resolutions, resFactor, inchesPerUnit])]
  norm_num

/-- C2 (amended): converting integer map scales to tile resolutions and
back yields the original scales, for every map unit. -/
theorem scales_resolutions_roundtrip (units : MapUnit) (scales : List ℤ) :
    resolutions_to_scales
      (scales_to_resolutions (scales.map (fun s : ℤ => (s : ℚ))) units) units =
      scales := by
  have hK : resFactor units ≠ 0 := ne_of_gt (resFactor_pos units)
  induction scales with
  | nil => rfl
  | cons s rest ih =>
      simpa [resolutions_to_scales, scales_to_resolutions,
        div_mul_cancel₀ _ hK] using ih

/-- C2 counterexample: the two conversions are not mutually inverse.
Converting the resolution 1/7 (in feet) to a scale rounds 1152/7 to the
integer 165, and converting back gives 165/1152 = 55/384, not 1/7. -/
theorem scales_resolutions_not_mutually_inverse :
    scales_to_resolutions
      ((resolutions_to_scales [(1 : ℚ)/7] MapUnit.feet).map (fun s : ℤ => (s : ℚ)))
      MapUnit.feet ≠ [(1 : ℚ)/7] := by
  have h165 : round ((1 : ℚ)/7 * resFactor MapUnit.feet) = 165 := by
    norm_num [resFactor, inchesPerUnit, round_eq]
  simp only [resolutions_to_scales, scales_to_resolutions, List.map_cons,
    List.map_nil, h165]
  intro h
  have := List.head_eq_of_cons_eq h
  norm_num [resFactor, inchesPerUnit] at this

/-- Tree node of the plugin (class Node of webgisplugin.py): a name, an
optionally attached layer, and an ordered list of children.  The mutable
parent pointer of the Python class is invisible to Node.find and to the
tree building helpers and is treated separately, in the object-store
model further below. -/
inductive Node where
  | mk (name : String) (layer : Option Layer) (children : List Node)

/-- Name of a Node. -/
def Node.name : Node → String
  | .mk nm _ _ => nm

/-- Layer attached to a Node. -/
def Node.layer : Node → Option Layer
  | .mk _ ly _ => ly

/-- Children of a Node. -/
def Node.children : Node → List Node
  | .mk _ _ cs => cs

/-- Host layer tree entity as observed by the tree building helpers: a
QgsLayerTreeLayer carrying a map layer, or a group node with a name and
an ordered list of child tree nodes. -/
inductive QTreeNode where
  | layer (l : Layer)
  | group (name : String) (children : List QTreeNode)

mutual
/-- The inner recursive helper overlays_tree of
WebGisPlugin.get_project_base_layers: a tree-layer node becomes a leaf
Node named by the layer id and carrying the layer when the layer
predicate accepts it, a group node is rebuilt from the accepted children
when at least one child survives, and otherwise the result is None.  The
layer predicate (is_base_layer_for_publish at the single call site in
the source) is abstracted as an argument so that substituting the other
predicate can be stated. -/
def baseOverlaysTree (pred : Layer → Bool) : QTreeNode → Option Node
  | .layer l => if pred l then some (.mk l.id (some l) []) else none
  | .group nm cs =>
      match baseOverlaysTreeChildren pred cs with
      | [] => none
      | c :: rest => some (.mk nm none (c :: rest))

/-- The children loop of the helper inside get_project_base_layers:
collect the non-None results of the recursive calls, in order. -/
def baseOverlaysTreeChildren (pred : Layer → Bool) : List QTreeNode → List Node
  | [] => []
  | t :: ts =>
      match baseOverlaysTree pred t with
      | some n => n :: baseOverlaysTreeChildren pred ts
      | none => baseOverlaysTreeChildren pred ts
end

mutual
/-- The inner recursive helper overlays_tree of
WebGisPlugin.get_project_layers, a second literal copy of the same
recursion, again with the layer predicate (is_overlay_layer_for_publish
at the single call site in the source) abstracted as an argument. -/
def layersOverlaysTree (pred : Layer → Bool) : QTreeNode → Option Node
  | .layer l => if pred l then some (.mk l.id (some l) []) else none
  | .group nm cs =>
      match layersOverlaysTreeChildren pred cs with
      | [] => none
      | c :: rest => some (.mk nm none (c :: rest))

/-- The children loop of the helper inside get_project_layers. -/
def layersOverlaysTreeChildren (pred : Layer → Bool) : List QTreeNode → List Node
  | [] => []
  | t :: ts =>
      match layersOverlaysTree pred t with
      | some n => n :: layersOverlaysTreeChildren pred ts
      | none => layersOverlaysTreeChildren pred ts
end

/-- WebGisPlugin.get_project_base_layers: mirror the host layer tree
root keeping the layers accepted by is_base_layer_for_publish. -/
def get_project_base_layers (root : QTreeNode) : Option Node :=
  baseOverlaysTree is_base_layer_for_publish root

/-- WebGisPlugin.get_project_layers: mirror the host layer tree root
keeping the layers accepted by is_overlay_layer_for_publish. -/
def get_project_layers (root : QTreeNode) : Option Node :=
  layersOverlaysTree is_overlay_layer_for_publish root

mutual
theorem baseOverlaysTree_eq_layersOverlaysTree (pred : Layer → Bool)
    (t : QTreeNode) : baseOverlaysTree pred t = layersOverlaysTree pred t := by
  match t with
  | .layer l => rfl
  | .group nm cs =>
      simp only [baseOverlaysTree, layersOverlaysTree,
        baseOverlaysTreeChildren_eq pred cs]

theorem baseOverlaysTreeChildren_eq (pred : Layer → Bool)
    (ts : List QTreeNode) :
    baseOverlaysTreeChildren pred ts = layersOverlaysTreeChildren pred ts := by
  match ts with
  | [] => rfl
  | t :: ts =>
      simp only [baseOverlaysTreeChildren, layersOverlaysTreeChildren,
        baseOverlaysTree_eq_layersOverlaysTree pred t,
        baseOverlaysTreeChildren_eq pred ts]
end

/-- C6: the two tree mirroring functions are two instances of one and
the same recursion, differing only in the layer predicate: substituting
is_overlay_layer_for_publish into the recursion of
get_project_base_layers yields get_project_layers, and substituting
is_base_layer_for_publish into the recursion of get_project_layers
yields get_project_base_layers, on every host layer tree. -/
theorem overlays_tree_predicate_swap (root : QTreeNode) :
    baseOverlaysTree is_overlay_layer_for_publish root =
      get_project_layers root ∧
    layersOverlaysTree is_base_layer_for_publish root =
      get_project_base_layers root := by
  constructor
  · exact baseOverlaysTree_eq_layersOverlaysTree _ root
  · exact (baseOverlaysTree_eq_layersOverlaysTree _ root).symm

mutual
/-- The layers of a host subtree accepted by a layer predicate, in
document order: the qualifying layers that the mirroring helpers
retain. -/
def QTreeNode.publishLayers (pred : Layer → Bool) : QTreeNode → List Layer
  | .layer l => if pred l then [l] else []
  | .group _ cs => QTreeNode.publishLayersChildren pred cs

/-- Concatenation of the accepted layers of a forest of host
subtrees. -/
def QTreeNode.publishLayersChildren (pred : Layer → Bool) :
    List QTreeNode → List Layer
  | [] => []
  | t :: ts =>
      QTreeNode.publishLayers pred t ++ QTreeNode.publishLayersChildren pred ts
end

mutual
/-- A Node tree mirrors a host subtree for a layer predicate: a
qualifying tree layer becomes a leaf named by the layer id and carrying
the layer, and a host group becomes a group of the same name whose
children mirror, in order, exactly those host children whose subtree
contains a qualifying layer (a nonempty selection). -/
inductive MirrorRel (pred : Layer → Bool) : QTreeNode → Node → Prop where
  | layer (l : Layer) : pred l = true →
      MirrorRel pred (.layer l) (.mk l.id (some l) [])
  | group (nm : String) (cs : List QTreeNode) (ns : List Node) :
      MirrorChildrenRel pred cs ns → ns ≠ [] →
      MirrorRel pred (.group nm cs) (.mk nm none ns)

/-- Mirroring of an ordered forest: host children without qualifying
layers are omitted, the others are mirrored in order. -/
inductive MirrorChildrenRel (pred : Layer → Bool) :
    List QTreeNode → List Node → Prop where
  | nil : MirrorChildrenRel pred [] []
  | skip (t : QTreeNode) (ts : List QTreeNode) (ns : List Node) :
      QTreeNode.publishLayers pred t = [] →
      MirrorChildrenRel pred ts ns → MirrorChildrenRel pred (t :: ts) ns
  | keep (t : QTreeNode) (n : Node) (ts : List QTreeNode) (ns : List Node) :
      MirrorRel pred t n →
      MirrorChildrenRel pred ts ns → MirrorChildrenRel pred (t :: ts) (n :: ns)
end

mutual
/-- Leaf nodes of a Node tree, left to right. -/
def Node.leaves : Node → List Node
  | .mk nm ly [] => [.mk nm ly []]
  | .mk _ _ (c :: cs) => Node.leavesChildren (c :: cs)

/-- Leaf nodes of a forest of Node trees, left to right. -/
def Node.leavesChildren : List Node → List Node
  | [] => []
  | c :: cs => c.leaves ++ Node.leavesChildren cs
end

mutual
theorem layersOverlaysTree_none_iff (pred : Layer → Bool) (t : QTreeNode) :
    layersOverlaysTree pred t = none ↔ QTreeNode.publishLayers pred t = [] := by
  match t with
  | .layer l =>
      by_cases h : pred l <;>
        simp [layersOverlaysTree, QTreeNode.publishLayers, h]
  | .group nm cs =>
      have h := layersOverlaysTreeChildren_nil_iff pred cs
      simp only [layersOverlaysTree, QTreeNode.publishLayers]
      cases hc : layersOverlaysTreeChildren pred cs with
      | nil => simpa [hc] using h
      | cons c rest => simp only [hc] at h; simp [← h]

theorem layersOverlaysTreeChildren_nil_iff (pred : Layer → Bool)
    (ts : List QTreeNode) :
    layersOverlaysTreeChildren pred ts = [] ↔
      QTreeNode.publishLayersChildren pred ts = [] := by
  match ts with
  | [] => simp [layersOverlaysTreeChildren, QTreeNode.publishLayersChildren]
  | t :: ts =>
      simp only [layersOverlaysTreeChildren, QTreeNode.publishLayersChildren,
        List.append_eq_nil]
      cases ht : layersOverlaysTree pred t with
      | some n =>
          constructor
          · intro h; exact absurd h (by simp)
          · intro h
            rw [← layersOverlaysTree_none_iff pred t] at h
            rw [ht] at h; exact absurd h.1 (by simp)
      | none =>
          rw [← layersOverlaysTree_none_iff pred t, ht,
            layersOverlaysTreeChildren_nil_iff pred ts]
          simp
end

mutual
theorem layersOverlaysTree_mirror (pred : Layer → Bool) (t : QTreeNode)
    (n : Node) (h : layersOverlaysTree pred t = some n) : MirrorRel pred t n := by
  match t with
  | .layer l =>
      by_cases hp : pred l
      · simp only [layersOverlaysTree, hp, if_true, Option.some.injEq] at h
        rw [← h]; exact MirrorRel.layer l hp
      · simp [layersOverlaysTree, hp] at h
  | .group nm cs =>
      simp only [layersOverlaysTree] at h
      cases hc : layersOverlaysTreeChildren pred cs with
      | nil => rw [hc] at h; exact absurd h (by simp)
      | cons c rest =>
          rw [hc] at h
          simp only [Option.some.injEq] at h
          rw [← h]
          exact MirrorRel.group nm cs (c :: rest)
            (hc ▸ layersOverlaysTreeChildren_mirror pred cs) (by simp)

theorem layersOverlaysTreeChildren_mirror (pred : Layer → Bool)
    (ts : List QTreeNode) :
    MirrorChildrenRel pred ts (layersOverlaysTreeChildren pred ts) := by
  match ts with
  | [] => exact MirrorChildrenRel.nil
  | t :: ts =>
      cases ht : layersOverlaysTree pred t with
      | some n =>
          simp only [layersOverlaysTreeChildren, ht]
          exact MirrorChildrenRel.keep t n ts _
            (layersOverlaysTree_mirror pred t n ht)
            (layersOverlaysTreeChildren_mirror pred ts)
      | none =>
          simp only [layersOverlaysTreeChildren, ht]
          exact MirrorChildrenRel.skip t ts _
            ((layersOverlaysTree_none_iff pred t).mp ht)
            (layersOverlaysTreeChildren_mirror pred ts)
end

mutual
theorem layersOverlaysTree_leaves (pred : Layer → Bool) (t : QTreeNode)
    (n : Node) (h : layersOverlaysTree pred t = some n) :
    n.leaves.map (fun m => (m.name, m.layer)) =
      (QTreeNode.publishLayers pred t).map (fun l => (l.id, some l)) := by
  match t with
  | .layer l =>
      by_cases hp : pred l
      · simp only [layersOverlaysTree, hp, if_true, Option.some.injEq] at h
        rw [← h]
        simp [Node.leaves, QTreeNode.publishLayers, hp, Node.name, Node.layer]
      · simp [layersOverlaysTree, hp] at h
  | .group nm cs =>
      simp only [layersOverlaysTree] at h
      cases hc : layersOverlaysTreeChildren pred cs with
      | nil => rw [hc] at h; exact absurd h (by simp)
      | cons c rest =>
          rw [hc] at h
          simp only [Option.some.injEq] at h
          rw [← h]
          simp only [Node.leaves, QTreeNode.publishLayers]
          rw [← hc]
          exact layersOverlaysTreeChildren_leaves pred cs

theorem layersOverlaysTreeChildren_leaves (pred : Layer → Bool)
    (ts : List QTreeNode) :
    (Node.leavesChildren (layersOverlaysTreeChildren pred ts)).map
        (fun m => (m.name, m.layer)) =
      (QTreeNode.publishLayersChildren pred ts).map (fun l => (l.id, some l)) := by
  match ts with
  | [] => rfl
  | t :: ts =>
      cases ht : layersOverlaysTree pred t with
      | some n =>
          simp only [layersOverlaysTreeChildren, ht,
            QTreeNode.publishLayersChildren, Node.leavesChildren,
            List.map_append]
          rw [layersOverlaysTree_leaves pred t n ht,
            layersOverlaysTreeChildren_leaves pred ts]
      | none =>
          have hnil := (layersOverlaysTree_none_iff pred t).mp ht
          simp only [layersOverlaysTreeChildren, ht,
            QTreeNode.publishLayersChildren, hnil, List.nil_append]
          exact layersOverlaysTreeChildren_leaves pred ts
end

/-- C3: get_project_layers returns None exactly when no layer of the
host tree qualifies under is_overlay_layer_for_publish; otherwise the
returned tree mirrors the host grouping hierarchy and names with the
empty selections omitted, and its leaves are, in order, exactly the
qualifying layers, each named by the layer id and carrying the layer. -/
theorem get_project_layers_spec (root : QTreeNode) :
    (get_project_layers root = none ↔
      QTreeNode.publishLayers is_overlay_layer_for_publish root = []) ∧
    (∀ t : Node, get_project_layers root = some t →
      MirrorRel is_overlay_layer_for_publish root t ∧
      t.leaves.map (fun m => (m.name, m.layer)) =
        (QTreeNode.publishLayers is_overlay_layer_for_publish root).map
          (fun l => (l.id, some l))) := by
  refine ⟨layersOverlaysTree_none_iff _ root, fun t ht => ⟨?_, ?_⟩⟩
  · exact layersOverlaysTree_mirror _ root t ht
  · exact layersOverlaysTree_leaves _ root t ht

/-- A sample vector layer (an overlay layer). -/
def sampleVector : Layer :=
  { id := "v1", ltype := LayerType.vector, providerType := "ogr",
    resolutions := none, hasScaleBasedVisibility := false,
    maximumScale := 0, minimumScale := 0 }

/-- A sample WMS raster layer (a base layer). -/
def sampleWms : Layer :=
  { id := "b1", ltype := LayerType.raster, providerType := "wms",
    resolutions := some [2, 1], hasScaleBasedVisibility := false,
    maximumScale := 0, minimumScale := 0 }

/-- C3 witness: on the host tree with a WMS raster and a nested group
holding a vector layer, get_project_layers drops the raster, keeps the
group, and the returned tree mirrors the host tree with its leaves being
exactly the one qualifying layer. -/
theorem get_project_layers_spec_witness :
    MirrorRel is_overlay_layer_for_publish
      (QTreeNode.group ("root")
        [QTreeNode.layer sampleWms, QTreeNode.group ("g") [QTreeNode.layer sampleVector]])
      (Node.mk ("root") none [Node.mk ("g") none [Node.mk ("v1") (some sampleVector) []]]) ∧
    (Node.mk ("root") none [Node.mk ("g") none
        [Node.mk ("v1") (some sampleVector) []]]).leaves.map (fun m => (m.name, m.layer)) =
      [("v1", some sampleVector)] := by
  have h := (get_project_layers_spec
      (QTreeNode.group ("root")
        [QTreeNode.layer sampleWms,
          QTreeNode.group ("g") [QTreeNode.layer sampleVector]])).2
      (Node.mk ("root") none [Node.mk ("g") none [Node.mk ("v1") (some sampleVector) []]])
      (by simp [get_project_layers, layersOverlaysTree, layersOverlaysTreeChildren,
        is_overlay_layer_for_publish, sampleWms, sampleVector])
  refine ⟨h.1, ?_⟩
  rw [h.2]
  simp [QTreeNode.publishLayers, QTreeNode.publishLayersChildren,
    is_overlay_layer_for_publish, sampleWms, sampleVector]

mutual
/-- Node.find of webgisplugin.py: return this node when its name
matches, otherwise the first match found by recursing into the children
in order; None (implicitly, in the Python source) when there is no
match. -/
def Node.find (name : String) : Node → Option Node
  | .mk nm ly cs =>
      if name = nm then some (.mk nm ly cs) else Node.findChildren name cs

/-- The children loop of Node.find: first non-None recursive result. -/
def Node.findChildren (name : String) : List Node → Option Node
  | [] => none
  | c :: cs =>
      match Node.find name c with
      | some r => some r
      | none => Node.findChildren name cs
end

mutual
/-- Pre-order listing of the nodes of a subtree: the node itself first,
then the subtrees of its children in order. -/
def Node.preorder : Node → List Node
  | .mk nm ly cs => .mk nm ly cs :: Node.preorderChildren cs

/-- Pre-order listing of a forest of subtrees. -/
def Node.preorderChildren : List Node → List Node
  | [] => []
  | c :: cs => c.preorder ++ Node.preorderChildren cs
end

mutual
theorem Node.find_eq_preorder (name : String) (t : Node) :
    Node.find name t = t.preorder.find? (fun m => name == m.name) := by
  match t with
  | .mk nm ly cs =>
      simp only [Node.find, Node.preorder, List.find?]
      by_cases h : name = nm
      · simp [h, Node.name]
      · have hb : (name == nm) = false := by simp [h]
        simp [Node.name, hb, Node.findChildren_eq_preorder name cs]
        exact fun hc => absurd hc h

theorem Node.findChildren_eq_preorder (name : String) (cs : List Node) :
    Node.findChildren name cs =
      (Node.preorderChildren cs).find? (fun m => name == m.name) := by
  match cs with
  | [] => simp [Node.findChildren, Node.preorderChildren]
  | c :: cs =>
      simp only [Node.findChildren, Node.preorderChildren, List.find?_append]
      rw [Node.find_eq_preorder name c, Node.findChildren_eq_preorder name cs]
      cases (c.preorder).find? (fun m => name == m.name) <;> simp
end

/-- C10: Node.find returns the first node of the pre-order listing of
the subtree (the receiver first, then the subtrees of the children in
order) whose name equals the argument, and it returns a result exactly
when some node of the subtree has that name. -/
theorem node_find_spec (name : String) (t : Node) :
    Node.find name t = t.preorder.find? (fun m => name == m.name) ∧
    ((Node.find name t).isSome ↔ ∃ m ∈ t.preorder, m.name = name) := by
  refine ⟨Node.find_eq_preorder name t, ?_⟩
  rw [Node.find_eq_preorder name t, List.find?_isSome]
  constructor
  · rintro ⟨m, hm, hp⟩
    simp only [beq_iff_eq] at hp
    exact ⟨m, hm, hp.symm⟩
  · rintro ⟨m, hm, hp⟩
    exact ⟨m, hm, by simp [hp]⟩

/-- Modelled from the spec: utils.to_decimal_array (utils.py is absent
from the sources at hand) converts the raw host values into exact
decimals; resolutions are already exact rationals in this embedding, so
the conversion is the identity. -/
def to_decimal_array (values : List ℚ) : List ℚ := values

/-- Python sorted(xs, reverse=True): stable descending sort. -/
def sortedDesc (xs : List ℚ) : List ℚ := xs.mergeSort (fun a b => decide (b ≤ a))

/-- WebGisPlugin.wmsc_layer_resolutions: None when the resolutions
property of the data provider is missing or empty (both falsy in
Python); otherwise the resolutions, filtered by scale-based visibility
when the layer has it, sorted in descending order, or the empty list
when the filter removed everything. -/
def wmsc_layer_resolutions (layer : Layer) (units : MapUnit) : Option (List ℚ) :=
  match layer.resolutions with
  | none => none
  | some rs =>
      if rs.isEmpty then none
      else
        let layer_resolutions := to_decimal_array rs
        let layer_resolutions :=
          if layer.hasScaleBasedVisibility then
            filter_visible_resolutions layer_resolutions layer units
          else layer_resolutions
        if layer_resolutions.isEmpty then some []
        else some (sortedDesc layer_resolutions)

/-- The project state observed by project_layers_resolutions: the map
units of the canvas, the registered map layers
(QgsProject.instance().mapLayers().values(), in order), and the
Scales/ScalesList entry of the project, present exactly when
readListEntry reports ok. -/
structure ProjectState where
  units : MapUnit
  mapLayers : List Layer
  scalesEntry : Option (List String)

/-- One step of a Python dict build: bind key k to value v, overwriting
the value when the key is present (keeping first-insertion order),
appending otherwise. -/
def dictUpdate (d : List (String × Layer)) (k : String) (v : Layer) :
    List (String × Layer) :=
  if d.any (fun p => p.1 == k) then
    d.map (fun p => if p.1 == k then (k, v) else p)
  else d ++ [(k, v)]

/-- The dict comprehension of project_layers_resolutions collecting the
base layers keyed by layer id. -/
def base_layers_dict (layers : List Layer) : List (String × Layer) :=
  layers.foldl
    (fun d l => if is_base_layer_for_publish l then dictUpdate d l.id l else d) []

/-- The values (in insertion order) of the base layers dict. -/
def project_base_layers (st : ProjectState) : List Layer :=
  (base_layers_dict st.mapLayers).map (fun p => p.2)

/-- Body of the loop of project_layers_resolutions over the base
layers: a truthy (non-None, nonempty) result of wmsc_layer_resolutions
is added to the set, anything falsy leaves it unchanged. -/
def wmscStep (units : MapUnit) (acc : Finset ℚ) (layer : Layer) : Finset ℚ :=
  match wmsc_layer_resolutions layer units with
  | some rs => if rs.isEmpty then acc else acc ∪ rs.toFinset
  | none => acc

/-- The set union of the visible resolutions of the WMSC base layers. -/
def wmscResolutionSet (st : ProjectState) : Finset ℚ :=
  (project_base_layers st).foldl (wmscStep st.units) ∅

/-- Python str.split with an explicit separator, on the character list
of the string: every occurrence of the separator starts a new group, so
the result is always nonempty and the wildcard branch is
unreachable. -/
def splitOnChar (sep : Char) : List Char → List (List Char)
  | [] => [[]]
  | c :: rest =>
      match splitOnChar sep rest with
      | [] => [[]]
      | g :: gs => if c = sep then [] :: g :: gs else (c :: g) :: gs

/-- The numeric value of a decimal digit character, None otherwise. -/
def digitVal (c : Char) : Option ℕ :=
  if c.isDigit then some (c.toNat - '0'.toNat) else none

/-- Python int applied to a string of decimal digits: None (the
ValueError) on the empty string or on any non-digit character.  (The
Python function also tolerates surrounding whitespace, separating
underscores and a sign; stored scale denominators are plain digit
strings.) -/
def parseNatDigits (cs : List Char) : Option ℕ :=
  cs.foldl
    (fun acc c =>
      match acc, digitVal c with
      | some n, some d => some (10 * n + d)
      | _, _ => none)
    (if cs.isEmpty then none else some 0)

/-- The parse int(scale.split(":")[-1]) applied to one stored scale
entry; None models the ValueError that int raises on a malformed
entry. -/
def parseScale (s : String) : Option ℤ :=
  (parseNatDigits ((splitOnChar ':' s.data).getLastD [])).map Int.ofNat

/-- The list comprehension parsing every stored scale entry; None as
soon as one entry fails to parse. -/
def parseScales : List String → Option (List ℤ)
  | [] => some []
  | e :: es =>
      match parseScale e, parseScales es with
      | some s, some ss => some (s :: ss)
      | _, _ => none

/-- The scales derived from the WMSC resolution set
(resolutions_to_scales applied to the set).  Python iterates the set in
an arbitrary order; the scales are only ever used through membership,
which is order independent, so the ascending enumeration is taken as
representative. -/
def wmsc_layers_scales (st : ProjectState) : List ℤ :=
  resolutions_to_scales ((wmscResolutionSet st).sort (· ≤ ·)) st.units

/-- Python sorted(s, reverse=True) on a set of resolutions: the
duplicate-free descending enumeration. -/
def sortDescFinset (s : Finset ℚ) : List ℚ := (s.sort (· ≤ ·)).reverse

/-- WebGisPlugin.project_layers_resolutions: the union of the visible
resolutions of the WMSC base layers and of the resolutions computed
from the stored scale list (dropping stored scales that already equal a
scale derived from the WMSC resolutions), enumerated in descending
order; None models the ValueError raised on a malformed stored scale
entry. -/
def project_layers_resolutions (st : ProjectState) : Option (List ℚ) :=
  let project_tile_resolutions := wmscResolutionSet st
  match st.scalesEntry with
  | some entries =>
      if entries.isEmpty then some (sortDescFinset project_tile_resolutions)
      else
        match parseScales entries with
        | none => none
        | some scales =>
            let scales := scales.filter
              (fun s => decide (s ∉ wmsc_layers_scales st))
            let project_tile_resolutions := project_tile_resolutions ∪
              (scales_to_resolutions
                ((scales.mergeSort (fun a b => decide (b ≤ a))).map
                  (fun s : ℤ => (s : ℚ)))
                st.units).toFinset
            some (sortDescFinset project_tile_resolutions)
  | none => some (sortDescFinset project_tile_resolutions)

theorem sortDescFinset_sorted (s : Finset ℚ) :
    List.Sorted (· > ·) (sortDescFinset s) := by
  rw [sortDescFinset, List.Sorted, List.pairwise_reverse]
  simpa using Finset.sort_sorted_lt s

theorem mem_sortDescFinset (s : Finset ℚ) (r : ℚ) :
    r ∈ sortDescFinset s ↔ r ∈ s := by
  simp [sortDescFinset, Finset.mem_sort]

theorem mem_wmscStep (units : MapUnit) (acc : Finset ℚ) (l : Layer) (r : ℚ) :
    r ∈ wmscStep units acc l ↔
      r ∈ acc ∨ ∃ rs, wmsc_layer_resolutions l units = some rs ∧ r ∈ rs := by
  rw [wmscStep]
  cases hw : wmsc_layer_resolutions l units with
  | none => simp
  | some rs =>
      by_cases he : rs.isEmpty
      · have hrs : rs = [] := by simpa using he
        subst hrs
        simp
      · simp [he]

theorem mem_wmscFold (units : MapUnit) (layers : List Layer) (acc : Finset ℚ)
    (r : ℚ) :
    r ∈ layers.foldl (wmscStep units) acc ↔
      r ∈ acc ∨ ∃ layer ∈ layers,
        ∃ rs, wmsc_layer_resolutions layer units = some rs ∧ r ∈ rs := by
  induction layers generalizing acc with
  | nil => simp
  | cons l ls ih =>
      rw [List.foldl_cons, ih, mem_wmscStep]
      simp only [List.mem_cons, exists_eq_or_imp]
      exact or_assoc

theorem base_layers_fold_eq (layers : List Layer) (acc : List (String × Layer))
    (hdisj : ∀ p ∈ acc, ∀ l ∈ layers,
      is_base_layer_for_publish l = true → p.1 ≠ l.id)
    (hn : ((layers.filter is_base_layer_for_publish).map Layer.id).Nodup) :
    layers.foldl
        (fun d l =>
          if is_base_layer_for_publish l then dictUpdate d l.id l else d) acc =
      acc ++ (layers.filter is_base_layer_for_publish).map (fun l => (l.id, l)) := by
  induction layers generalizing acc with
  | nil => simp
  | cons l ls ih =>
      rw [List.foldl_cons]
      by_cases hb : is_base_layer_for_publish l
      · rw [if_pos hb]
        have hno : acc.any (fun p => p.1 == l.id) = false := by
          rw [List.any_eq_false]
          intro p hp
          simp only [beq_iff_eq]
          exact hdisj p hp l (List.mem_cons_self l ls) hb
        have hupd : dictUpdate acc l.id l = acc ++ [(l.id, l)] := by
          rw [dictUpdate, hno]
          simp
        have hfs : (l :: ls).filter is_base_layer_for_publish =
            l :: ls.filter is_base_layer_for_publish := by
          simp [List.filter_cons, hb]
        rw [hfs, List.map_cons] at hn
        have hlid : l.id ∉ (ls.filter is_base_layer_for_publish).map Layer.id :=
          (List.nodup_cons.mp hn).1
        have hdisj2 : ∀ p ∈ acc ++ [(l.id, l)], ∀ l' ∈ ls,
            is_base_layer_for_publish l' = true → p.1 ≠ l'.id := by
          intro p hp l' hl' hb'
          rcases List.mem_append.mp hp with hpa | hpl
          · exact hdisj p hpa l' (List.mem_cons_of_mem l hl') hb'
          · have hpe : p = (l.id, l) := by simpa using hpl
            subst hpe
            intro hcontra
            have hc2 : l.id = l'.id := hcontra
            exact hlid (by
              rw [hc2]
              exact List.mem_map_of_mem Layer.id (List.mem_filter.mpr ⟨hl', hb'⟩))
        rw [hupd, ih (acc ++ [(l.id, l)]) hdisj2 (List.nodup_cons.mp hn).2, hfs]
        simp
      · rw [if_neg hb]
        have hfs : (l :: ls).filter is_base_layer_for_publish =
            ls.filter is_base_layer_for_publish := by
          simp [List.filter_cons, hb]
        rw [hfs] at hn
        have hdisj2 : ∀ p ∈ acc, ∀ l' ∈ ls,
            is_base_layer_for_publish l' = true → p.1 ≠ l'.id := by
          intro p hp l' hl' hb'
          exact hdisj p hp l' (List.mem_cons_of_mem l hl') hb'
        rw [ih acc hdisj2 hn, hfs]

theorem base_layers_dict_values (layers : List Layer)
    (hids : (layers.map Layer.id).Nodup) :
    (base_layers_dict layers).map (fun p => p.2) =
      layers.filter is_base_layer_for_publish := by
  have hn : ((layers.filter is_base_layer_for_publish).map Layer.id).Nodup := by
    refine List.Nodup.sublist ?_ hids
    exact List.Sublist.map Layer.id (List.filter_sublist layers)
  rw [base_layers_dict, base_layers_fold_eq layers [] (by simp) hn]
  simp only [List.nil_append, List.map_map]
  have hcomp : ((fun p : String × Layer => p.2) ∘ fun l : Layer => (l.id, l)) =
      id := rfl
  rw [hcomp, List.map_id]

theorem mem_wmscResolutionSet (st : ProjectState)
    (hids : (st.mapLayers.map Layer.id).Nodup) (r : ℚ) :
    r ∈ wmscResolutionSet st ↔
      ∃ layer ∈ st.mapLayers.filter is_base_layer_for_publish,
        ∃ rs, wmsc_layer_resolutions layer st.units = some rs ∧ r ∈ rs := by
  rw [wmscResolutionSet, mem_wmscFold, project_base_layers,
    base_layers_dict_values st.mapLayers hids]
  simp

theorem mem_parseScales (entries : List String) (scales : List ℤ)
    (h : parseScales entries = some scales) (s : ℤ) :
    s ∈ scales ↔ ∃ e ∈ entries, parseScale e = some s := by
  induction entries generalizing scales with
  | nil =>
      simp only [parseScales, Option.some.injEq] at h
      subst h
      simp
  | cons e es ih =>
      cases hpe : parseScale e with
      | none => simp [parseScales, hpe] at h
      | some v =>
          cases hps : parseScales es with
          | none => simp [parseScales, hpe, hps] at h
          | some ss =>
              simp only [parseScales, hpe, hps, Option.some.injEq] at h
              subst h
              constructor
              · intro hs
                rcases List.mem_cons.mp hs with h1 | h2
                · exact ⟨e, List.mem_cons_self e es, by rw [hpe, h1]⟩
                · obtain ⟨e', he', hp⟩ := (ih ss hps).mp h2
                  exact ⟨e', List.mem_cons_of_mem e he', hp⟩
              · rintro ⟨e', he', hp⟩
                rcases List.mem_cons.mp he' with rfl | hmem
                · rw [hpe] at hp
                  refine List.mem_cons.mpr (Or.inl ?_)
                  injection hp with hv
                  exact hv.symm
                · exact List.mem_cons.mpr (Or.inr ((ih ss hps).mpr ⟨e', hmem, hp⟩))

theorem mem_convertedScales (units : MapUnit) (scales2 : List ℤ) (r : ℚ) :
    r ∈ scales_to_resolutions
        ((scales2.mergeSort (fun a b => decide (b ≤ a))).map (fun s : ℤ => (s : ℚ)))
        units ↔
      ∃ s ∈ scales2, scales_to_resolutions [(s : ℚ)] units = [r] := by
  rw [scales_to_resolutions, List.map_map]
  simp only [List.mem_map, List.mem_mergeSort, Function.comp_apply]
  constructor
  · rintro ⟨s, hs, hr⟩
    refine ⟨s, hs, ?_⟩
    simp only [scales_to_resolutions, List.map_cons, List.map_nil]
    rw [hr]
  · rintro ⟨s, hs, hr⟩
    refine ⟨s, hs, ?_⟩
    simpa [scales_to_resolutions] using hr

/-- C1: for every project state whose layer ids are distinct (the host
registry is keyed by layer id), a successful run of
project_layers_resolutions returns a duplicate-free strictly descending
list whose members are exactly the union of the visible resolutions of
the WMSC base layers and the resolutions converted from the stored
scale list, a stored scale being dropped before conversion when it
equals a scale derived from the WMSC resolutions. -/
theorem project_layers_resolutions_spec (st : ProjectState) (res : List ℚ)
    (hids : (st.mapLayers.map Layer.id).Nodup)
    (h : project_layers_resolutions st = some res) :
    List.Sorted (· > ·) res ∧
    (∀ r : ℚ, r ∈ res ↔
      ((∃ layer ∈ st.mapLayers.filter is_base_layer_for_publish,
          ∃ rs, wmsc_layer_resolutions layer st.units = some rs ∧ r ∈ rs) ∨
       (∃ entries, st.scalesEntry = some entries ∧ entries ≠ [] ∧
          ∃ e ∈ entries, ∃ s : ℤ, parseScale e = some s ∧
            s ∉ wmsc_layers_scales st ∧
            scales_to_resolutions [(s : ℚ)] st.units = [r]))) := by
  rw [project_layers_resolutions] at h
  cases hse : st.scalesEntry with
  | none =>
      rw [hse] at h
      simp only [Option.some.injEq] at h
      subst h
      refine ⟨sortDescFinset_sorted _, fun r => ?_⟩
      rw [mem_sortDescFinset, mem_wmscResolutionSet st hids]
      constructor
      · exact Or.inl
      · rintro (hr | ⟨entries, hent, -⟩)
        · exact hr
        · cases hent
  | some entries =>
      rw [hse] at h
      dsimp only at h
      by_cases hemp : entries.isEmpty
      · have hnil : entries = [] := by simpa using hemp
        rw [if_pos hemp] at h
        simp only [Option.some.injEq] at h
        subst h
        refine ⟨sortDescFinset_sorted _, fun r => ?_⟩
        rw [mem_sortDescFinset, mem_wmscResolutionSet st hids]
        constructor
        · exact Or.inl
        · rintro (hr | ⟨entries2, hent, hne, -⟩)
          · exact hr
          · rw [Option.some.injEq] at hent
            exact absurd (hent ▸ hnil) hne
      · rw [if_neg hemp] at h
        cases hps : parseScales entries with
        | none =>
            rw [hps] at h
            exact Option.noConfusion h
        | some scales =>
            rw [hps] at h
            simp only [Option.some.injEq] at h
            subst h
            refine ⟨sortDescFinset_sorted _, fun r => ?_⟩
            rw [mem_sortDescFinset, Finset.mem_union,
              mem_wmscResolutionSet st hids, List.mem_toFinset,
              mem_convertedScales]
            constructor
            · rintro (hr | ⟨s, hsmem, hconv⟩)
              · exact Or.inl hr
              · obtain ⟨hs, hnot⟩ := List.mem_filter.mp hsmem
                rw [decide_eq_true_eq] at hnot
                obtain ⟨e, he, hpe⟩ := (mem_parseScales entries scales hps s).mp hs
                exact Or.inr ⟨entries, rfl, by simpa using hemp,
                  e, he, s, hpe, hnot, hconv⟩
            · rintro (hr | ⟨entries2, hent, -, e, he, s, hpe, hnot, hconv⟩)
              · exact Or.inl hr
              · rw [Option.some.injEq] at hent
                subst hent
                refine Or.inr ⟨s, List.mem_filter.mpr ⟨?_, by simpa using hnot⟩, hconv⟩
                exact (mem_parseScales entries scales hps s).mpr ⟨e, he, hpe⟩

/-- A sample WMSC base layer advertising the single resolution 1. -/
def sampleBase : Layer :=
  { id := "b2", ltype := LayerType.raster, providerType := "wms",
    resolutions := some [1], hasScaleBasedVisibility := false,
    maximumScale := 0, minimumScale := 0 }

/-- A sample project (in feet): one WMSC base layer with resolution 1
and a stored scale list holding the single entry "1:1152", whose scale
1152 equals the scale derived from the WMSC resolution 1 and is
therefore dropped. -/
def sampleProject : ProjectState :=
  { units := MapUnit.feet, mapLayers := [sampleBase],
    scalesEntry := some ["1:1152"] }

/-- C1 witness: on the sample project, project_layers_resolutions
returns [1] (the stored scale 1:1152 duplicates the WMSC-derived scale
and is dropped), the result is strictly descending, and the resolution
1 belongs to it exactly as the union description states. -/
theorem project_layers_resolutions_spec_witness :
    List.Sorted (· > ·) [(1 : ℚ)] ∧
    ((1 : ℚ) ∈ [(1 : ℚ)] ↔
      ((∃ layer ∈ sampleProject.mapLayers.filter is_base_layer_for_publish,
          ∃ rs, wmsc_layer_resolutions layer sampleProject.units = some rs ∧
            (1 : ℚ) ∈ rs) ∨
       (∃ entries, sampleProject.scalesEntry = some entries ∧ entries ≠ [] ∧
          ∃ e ∈ entries, ∃ s : ℤ, parseScale e = some s ∧
            s ∉ wmsc_layers_scales sampleProject ∧
            scales_to_resolutions [(s : ℚ)] sampleProject.units =
              [(1 : ℚ)]))) := by
  have hparse : parseScales ["1:1152"] = some [1152] := rfl
  have hbl : project_base_layers sampleProject = [sampleBase] := rfl
  have hw : wmsc_layer_resolutions sampleBase MapUnit.feet = some [1] := by
    simp [wmsc_layer_resolutions, sampleBase, to_decimal_array, sortedDesc,
      List.mergeSort_singleton]
  have hset : wmscResolutionSet sampleProject = {1} := by
    rw [wmscResolutionSet, hbl, List.foldl_cons, List.foldl_nil, wmscStep]
    rw [show sampleProject.units = MapUnit.feet from rfl, hw]
    simp
  have hscales : wmsc_layers_scales sampleProject = [1152] := by
    rw [wmsc_layers_scales, hset, Finset.sort_singleton]
    rw [show sampleProject.units = MapUnit.feet from rfl]
    rw [resolutions_to_scales, List.map_cons, List.map_nil]
    norm_num [resFactor, inchesPerUnit, round_eq]
  have hfilt : List.filter (fun s => decide (s ∉ wmsc_layers_scales sampleProject))
      [(1152 : ℤ)] = [] := by
    simp [hscales]
  have hmain : project_layers_resolutions sampleProject = some [1] := by
    rw [project_layers_resolutions,
      show sampleProject.scalesEntry = some ["1:1152"] from rfl]
    dsimp only
    rw [if_neg (by decide : ¬(["1:1152"].isEmpty = true)), hparse]
    dsimp only
    rw [hfilt, List.mergeSort_nil, List.map_nil]
    rw [scales_to_resolutions, List.map_nil, List.toFinset_nil,
      Finset.union_empty, hset, sortDescFinset, Finset.sort_singleton]
    rfl
  have hspec := project_layers_resolutions_spec sampleProject [1]
    (by simp [sampleProject]) hmain
  exact ⟨hspec.1, hspec.2 1⟩

/-- Record of one Python Node object: the class attributes name, layer,
parent and children (children holding references to other Node
objects). -/
structure NodeRec where
  name : String
  layer : Option Layer
  parent : Option ℕ
  children : List ℕ

/-- Object store for Node objects.  The Python objects are mutable and
carry a parent pointer, so Node.__init__ and Node.append are modelled
as transformations of a store of node records addressed by allocation
index. -/
structure NodeStore where
  recs : List NodeRec

/-- The record at address i (a default record outside the store). -/
def NodeStore.get (h : NodeStore) (i : ℕ) : NodeRec :=
  h.recs.getD i ⟨"", none, none, []⟩

/-- Number of allocated Node objects. -/
def NodeStore.size (h : NodeStore) : ℕ := h.recs.length

/-- Allocate a fresh Node with the given name and layer: the start of
Node.__init__ (children empty, parent None). -/
def NodeStore.alloc (h : NodeStore) (name : String) (layer : Option Layer) :
    NodeStore × ℕ :=
  ({ recs := h.recs ++ [⟨name, layer, none, []⟩] }, h.recs.length)

/-- The assignment node.parent = self of Node.append. -/
def NodeStore.setParent (h : NodeStore) (c p : ℕ) : NodeStore :=
  { recs := h.recs.set c { h.get c with parent := some p } }

/-- The call self.children.append(node) of Node.append. -/
def NodeStore.pushChild (h : NodeStore) (p c : ℕ) : NodeStore :=
  { recs := h.recs.set p
      { h.get p with children := (h.get p).children ++ [c] } }

/-- One argument of Node.append: None, a plain string (to be wrapped
into a fresh Node), or an existing Node object. -/
inductive AppendArg where
  | null
  | str (s : String)
  | node (i : ℕ)
deriving DecidableEq

/-- One iteration of the loop of Node.append on self = p: skip None,
wrap a string into a fresh Node, then set the parent pointer and append
to the children of self. -/
def appendOne (h : NodeStore) (p : ℕ) : AppendArg → NodeStore
  | .null => h
  | .str s =>
      let hc := h.alloc s none
      (hc.1.setParent hc.2 p).pushChild p hc.2
  | .node c => (h.setParent c p).pushChild p c

/-- Node.append: the loop over the argument tuple. -/
def NodeStore.append (h : NodeStore) (p : ℕ) (args : List AppendArg) :
    NodeStore :=
  args.foldl (fun h a => appendOne h p a) h

/-- Node.__init__: allocate, then append the given children (the Python
guard `if children` only skips an append call that would do nothing). -/
def NodeStore.init (h : NodeStore) (name : String) (children : List AppendArg)
    (layer : Option Layer) : NodeStore × ℕ :=
  let hi := h.alloc name layer
  (hi.1.append hi.2 children, hi.2)

/-- The parent invariant of the Node tree: every child recorded in a
children list points back to that node through its parent field. -/
def parentInv (h : NodeStore) : Prop :=
  ∀ p c, c ∈ (h.get p).children → (h.get c).parent = some p

/-- Children lists only reference allocated nodes. -/
def childrenWf (h : NodeStore) : Prop :=
  ∀ p c, c ∈ (h.get p).children → c < h.size

/-- The node id carried by a Node-object argument. -/
def argNodeId : AppendArg → Option ℕ
  | .node i => some i
  | _ => none

/-- Arguments of Node.append that are not skipped. -/
def argKeep : AppendArg → Bool
  | .null => false
  | _ => true

theorem getD_set_self (l : List NodeRec) (i : ℕ) (v d : NodeRec)
    (h : i < l.length) : (l.set i v).getD i d = v := by
  rw [List.getD_eq_getD_get?, List.get?_eq_getElem?,
    List.getElem?_set_eq_of_lt v h]
  rfl

theorem getD_set_ne (l : List NodeRec) (i j : ℕ) (v d : NodeRec)
    (hji : j ≠ i) : (l.set i v).getD j d = l.getD j d := by
  rw [List.getD_eq_getD_get?, List.getD_eq_getD_get?, List.get?_eq_getElem?,
    List.get?_eq_getElem?, List.getElem?_set_ne (fun he => hji he.symm)]

theorem NodeStore.size_setParent (h : NodeStore) (c p : ℕ) :
    (h.setParent c p).size = h.size := by
  simp [NodeStore.setParent, NodeStore.size]

theorem NodeStore.size_pushChild (h : NodeStore) (p c : ℕ) :
    (h.pushChild p c).size = h.size := by
  simp [NodeStore.pushChild, NodeStore.size]

theorem NodeStore.size_alloc (h : NodeStore) (nm : String) (ly : Option Layer) :
    (h.alloc nm ly).1.size = h.size + 1 := by
  simp [NodeStore.alloc, NodeStore.size]

theorem NodeStore.get_setParent_self (h : NodeStore) (c p : ℕ)
    (hc : c < h.size) :
    (h.setParent c p).get c = { h.get c with parent := some p } := by
  rw [NodeStore.setParent, NodeStore.get]
  exact getD_set_self h.recs c _ _ hc

theorem NodeStore.get_setParent_ne (h : NodeStore) (c p i : ℕ) (hic : i ≠ c) :
    (h.setParent c p).get i = h.get i := by
  rw [NodeStore.setParent, NodeStore.get, NodeStore.get]
  exact getD_set_ne h.recs c i _ _ hic

theorem NodeStore.get_pushChild_self (h : NodeStore) (p c : ℕ)
    (hp : p < h.size) :
    (h.pushChild p c).get p =
      { h.get p with children := (h.get p).children ++ [c] } := by
  rw [NodeStore.pushChild, NodeStore.get]
  exact getD_set_self h.recs p _ _ hp

theorem NodeStore.get_pushChild_ne (h : NodeStore) (p c i : ℕ) (hip : i ≠ p) :
    (h.pushChild p c).get i = h.get i := by
  rw [NodeStore.pushChild, NodeStore.get, NodeStore.get]
  exact getD_set_ne h.recs p i _ _ hip

theorem NodeStore.get_alloc_old (h : NodeStore) (nm : String) (ly : Option Layer)
    (i : ℕ) (hi : i < h.size) : (h.alloc nm ly).1.get i = h.get i := by
  rw [NodeStore.alloc, NodeStore.get, NodeStore.get]
  exact List.getD_append h.recs _ _ i hi

theorem NodeStore.get_alloc_new (h : NodeStore) (nm : String) (ly : Option Layer) :
    (h.alloc nm ly).1.get h.size = ⟨nm, ly, none, []⟩ := by
  rw [NodeStore.alloc, NodeStore.get]
  rw [List.getD_append_right h.recs _ _ h.size (le_refl _)]
  simp [NodeStore.size]

theorem appendOne_node_spec (h : NodeStore) (p i : ℕ) (hp : p < h.size)
    (hi : i < h.size) (hfresh : ∀ q, i ∉ (h.get q).children)
    (hpinv : parentInv h) (hwf : childrenWf h) :
    (appendOne h p (.node i)).size = h.size ∧
    ((appendOne h p (.node i)).get p).children = (h.get p).children ++ [i] ∧
    ((appendOne h p (.node i)).get i).parent = some p ∧
    (∀ j, j ≠ p → j ≠ i → (appendOne h p (.node i)).get j = h.get j) ∧
    (∀ q, ((appendOne h p (.node i)).get q).children =
      if q = p then (h.get q).children ++ [i] else (h.get q).children) ∧
    parentInv (appendOne h p (.node i)) ∧
    childrenWf (appendOne h p (.node i)) := by
  have e : appendOne h p (.node i) = (h.setParent i p).pushChild p i := rfl
  have hp2 : p < (h.setParent i p).size := by
    rw [NodeStore.size_setParent]; exact hp
  have hsize : (appendOne h p (.node i)).size = h.size := by
    rw [e, NodeStore.size_pushChild, NodeStore.size_setParent]
  have hspch : ∀ q, ((h.setParent i p).get q).children = (h.get q).children := by
    intro q
    by_cases hqi : q = i
    · subst hqi
      rw [NodeStore.get_setParent_self _ _ _ hi]
    · rw [NodeStore.get_setParent_ne _ _ _ _ hqi]
  have hsppar : ∀ q, q ≠ i →
      ((h.setParent i p).get q).parent = (h.get q).parent := by
    intro q hqi
    rw [NodeStore.get_setParent_ne _ _ _ _ hqi]
  have hchildren : ∀ q, ((appendOne h p (.node i)).get q).children =
      if q = p then (h.get q).children ++ [i] else (h.get q).children := by
    intro q
    by_cases hqp : q = p
    · subst hqp
      rw [if_pos rfl, e, NodeStore.get_pushChild_self _ _ _ hp2, hspch]
    · rw [if_neg hqp, e, NodeStore.get_pushChild_ne _ _ _ _ hqp, hspch]
  have hparenti : ((appendOne h p (.node i)).get i).parent = some p := by
    by_cases hip : i = p
    · rw [e, hip]
      rw [NodeStore.get_pushChild_self (h.setParent p p) p p
        (by rw [NodeStore.size_setParent]; exact hp)]
      show ((h.setParent p p).get p).parent = some p
      rw [NodeStore.get_setParent_self h p p hp]
    · rw [e, NodeStore.get_pushChild_ne _ _ _ _ hip,
        NodeStore.get_setParent_self _ _ _ hi]
  have hpar_ne : ∀ c, c ≠ i →
      ((appendOne h p (.node i)).get c).parent = (h.get c).parent := by
    intro c hci
    by_cases hcp : c = p
    · rw [e, hcp, NodeStore.get_pushChild_self _ _ _ hp2]
      show ((h.setParent i p).get p).parent = (h.get p).parent
      exact hsppar p (fun hpe => hci (hcp.trans hpe))
    · rw [e, NodeStore.get_pushChild_ne _ _ _ _ hcp,
        NodeStore.get_setParent_ne _ _ _ _ hci]
  have hgetj : ∀ j, j ≠ p → j ≠ i →
      (appendOne h p (.node i)).get j = h.get j := by
    intro j hjp hji
    rw [e, NodeStore.get_pushChild_ne _ _ _ _ hjp,
      NodeStore.get_setParent_ne _ _ _ _ hji]
  refine ⟨hsize, by rw [hchildren, if_pos rfl], hparenti, hgetj, hchildren,
    ?_, ?_⟩
  · intro q c hc
    rw [hchildren] at hc
    by_cases hqp : q = p
    · rw [if_pos hqp] at hc
      subst hqp
      rcases List.mem_append.mp hc with hold | hnew
      · have hci : c ≠ i := fun hcon => hfresh q (hcon ▸ hold)
        rw [hpar_ne c hci]
        exact hpinv q c hold
      · have hci : c = i := by simpa using hnew
        subst hci
        exact hparenti
    · rw [if_neg hqp] at hc
      have hci : c ≠ i := fun hcon => hfresh q (hcon ▸ hc)
      rw [hpar_ne c hci]
      exact hpinv q c hc
  · intro q c hc
    rw [hchildren] at hc
    rw [hsize]
    by_cases hqp : q = p
    · rw [if_pos hqp] at hc
      rcases List.mem_append.mp hc with hold | hnew
      · exact hwf q c hold
      · have hci : c = i := by simpa using hnew
        exact hci ▸ hi
    · rw [if_neg hqp] at hc
      exact hwf q c hc

theorem NodeStore.get_out (h : NodeStore) (q : ℕ) (hq : h.size ≤ q) :
    h.get q = ⟨"", none, none, []⟩ := by
  rw [NodeStore.get, List.getD_eq_default]
  exact hq

theorem appendOne_str_spec (h : NodeStore) (p : ℕ) (s : String)
    (hp : p < h.size) (hpinv : parentInv h) (hwf : childrenWf h) :
    (appendOne h p (.str s)).size = h.size + 1 ∧
    ((appendOne h p (.str s)).get p).children =
      (h.get p).children ++ [h.size] ∧
    (appendOne h p (.str s)).get h.size =
      ⟨s, none, some p, []⟩ ∧
    (∀ j, j ≠ p → j < h.size → (appendOne h p (.str s)).get j = h.get j) ∧
    (∀ q, ((appendOne h p (.str s)).get q).children =
      if q = p then (h.get q).children ++ [h.size] else (h.get q).children) ∧
    parentInv (appendOne h p (.str s)) ∧
    childrenWf (appendOne h p (.str s)) := by
  have hnp : h.size ≠ p := fun hc => absurd (hc ▸ hp) (lt_irrefl _)
  have e : appendOne h p (.str s) =
      (((h.alloc s none).1.setParent h.size p).pushChild p h.size) := rfl
  have hs1 : (h.alloc s none).1.size = h.size + 1 := NodeStore.size_alloc h s none
  have hw1 : h.size < (h.alloc s none).1.size := by rw [hs1]; exact Nat.lt_succ_self _
  have hsize : (appendOne h p (.str s)).size = h.size + 1 := by
    rw [e, NodeStore.size_pushChild, NodeStore.size_setParent, hs1]
  have hp2 : p < ((h.alloc s none).1.setParent h.size p).size := by
    rw [NodeStore.size_setParent, hs1]
    exact Nat.lt_succ_of_lt hp
  have hgetw : (appendOne h p (.str s)).get h.size = ⟨s, none, some p, []⟩ := by
    rw [e, NodeStore.get_pushChild_ne _ _ _ _ hnp,
      NodeStore.get_setParent_self _ _ _ hw1, NodeStore.get_alloc_new]
  have hold : ∀ j, j ≠ p → j < h.size →
      (appendOne h p (.str s)).get j = h.get j := by
    intro j hjp hj
    have hjw : j ≠ h.size := fun hc => absurd (hc ▸ hj) (lt_irrefl _)
    rw [e, NodeStore.get_pushChild_ne _ _ _ _ hjp,
      NodeStore.get_setParent_ne _ _ _ _ hjw,
      NodeStore.get_alloc_old _ _ _ _ hj]
  have hgetp_pre : ((h.alloc s none).1.setParent h.size p).get p = h.get p := by
    rw [NodeStore.get_setParent_ne _ _ _ _ (fun hc => hnp hc.symm),
      NodeStore.get_alloc_old _ _ _ _ hp]
  have hchildren : ∀ q, ((appendOne h p (.str s)).get q).children =
      if q = p then (h.get q).children ++ [h.size] else (h.get q).children := by
    intro q
    by_cases hqp : q = p
    · rw [if_pos hqp, hqp, e, NodeStore.get_pushChild_self _ _ _ hp2, hgetp_pre]
    · rw [if_neg hqp]
      by_cases hqw : q = h.size
      · rw [hqw, hgetw]
        have : (h.get h.size).children = [] := by
          rw [NodeStore.get, List.getD_eq_default]
          exact le_refl _
        rw [this]
      · by_cases hq : q < h.size
        · rw [hold q hqp hq]
        · have hge : h.size + 1 ≤ q := by omega
          have h1 : (h.get q).children = [] := by
            rw [NodeStore.get_out h q (by omega)]
          have h2 : ((appendOne h p (.str s)).get q).children = [] := by
            rw [NodeStore.get_out _ q (by rw [hsize]; omega)]
          rw [h1, h2]
  have hpar_ne : ∀ c, c ≠ h.size →
      ((appendOne h p (.str s)).get c).parent = (h.get c).parent := by
    intro c hcw
    by_cases hcp : c = p
    · rw [e, hcp, NodeStore.get_pushChild_self _ _ _ hp2]
      show (((h.alloc s none).1.setParent h.size p).get p).parent =
        (h.get p).parent
      rw [hgetp_pre]
    · by_cases hc : c < h.size
      · rw [hold c hcp hc]
      · have hcge : h.size ≤ c := by omega
        have h1 : (h.get c).parent = none := by
          rw [NodeStore.get_out h c hcge]
        have h2 : ((appendOne h p (.str s)).get c).parent = none := by
          rw [NodeStore.get_out _ c (by rw [hsize]; omega)]
        rw [h1, h2]
  refine ⟨hsize, by rw [hchildren, if_pos rfl], hgetw, hold, hchildren, ?_, ?_⟩
  · intro q c hc
    rw [hchildren] at hc
    by_cases hqp : q = p
    · rw [if_pos hqp] at hc
      subst hqp
      rcases List.mem_append.mp hc with holdm | hnew
      · have hcw : c ≠ h.size := fun hcon =>
          absurd (hcon ▸ hwf q c holdm) (lt_irrefl _)
        rw [hpar_ne c hcw]
        exact hpinv q c holdm
      · have hcw : c = h.size := by simpa using hnew
        subst hcw
        rw [hgetw]
    · rw [if_neg hqp] at hc
      have hcw : c ≠ h.size := fun hcon =>
        absurd (hcon ▸ hwf q c hc) (lt_irrefl _)
      rw [hpar_ne c hcw]
      exact hpinv q c hc
  · intro q c hc
    rw [hchildren] at hc
    rw [hsize]
    by_cases hqp : q = p
    · rw [if_pos hqp] at hc
      rcases List.mem_append.mp hc with holdm | hnew
      · exact Nat.lt_succ_of_lt (hwf q c holdm)
      · have : c = h.size := by simpa using hnew
        omega
    · rw [if_neg hqp] at hc
      exact Nat.lt_succ_of_lt (hwf q c hc)

theorem appendOne_size_le (h : NodeStore) (p : ℕ) (a : AppendArg) :
    h.size ≤ (appendOne h p a).size := by
  cases a with
  | null => exact le_refl _
  | node i =>
      rw [show appendOne h p (.node i) = (h.setParent i p).pushChild p i from rfl,
        NodeStore.size_pushChild, NodeStore.size_setParent]
  | str s =>
      rw [show appendOne h p (.str s) =
          (((h.alloc s none).1.setParent h.size p).pushChild p h.size) from rfl,
        NodeStore.size_pushChild, NodeStore.size_setParent, NodeStore.size_alloc]
      exact Nat.le_succ _

theorem append_parent_stable (h : NodeStore) (p : ℕ) (args : List AppendArg)
    (i : ℕ) (hp : p < h.size) (hi : i < h.size)
    (hnot : ∀ j, AppendArg.node j ∈ args → j ≠ i) :
    ((h.append p args).get i).parent = (h.get i).parent := by
  induction args generalizing h with
  | nil => rfl
  | cons a args ih =>
      have hstep : ((appendOne h p a).get i).parent = (h.get i).parent := by
        cases a with
        | null => rfl
        | node j =>
            have hji : j ≠ i := hnot j (List.mem_cons_self _ _)
            show (((h.setParent j p).pushChild p j).get i).parent = _
            by_cases hip : i = p
            · rw [hip, NodeStore.get_pushChild_self _ _ _
                (by rw [NodeStore.size_setParent]; exact hp)]
              show ((h.setParent j p).get p).parent = (h.get p).parent
              rw [NodeStore.get_setParent_ne _ _ _ _
                (fun hpe => hji ((hip.trans hpe).symm))]
            · rw [NodeStore.get_pushChild_ne _ _ _ _ hip,
                NodeStore.get_setParent_ne _ _ _ _ (fun hc => hji hc.symm)]
        | str s =>
            have hiw : i ≠ h.size := fun hc => absurd (hc ▸ hi) (lt_irrefl _)
            show ((((h.alloc s none).1.setParent h.size p).pushChild
              p h.size).get i).parent = _
            by_cases hip : i = p
            · rw [hip, NodeStore.get_pushChild_self _ _ _
                (by rw [NodeStore.size_setParent, NodeStore.size_alloc]
                    exact Nat.lt_succ_of_lt hp)]
              show (((h.alloc s none).1.setParent h.size p).get p).parent =
                (h.get p).parent
              rw [NodeStore.get_setParent_ne _ _ _ _
                  (fun hc => absurd (hc ▸ hp) (lt_irrefl _)),
                NodeStore.get_alloc_old _ _ _ _ hp]
            · rw [NodeStore.get_pushChild_ne _ _ _ _ hip,
                NodeStore.get_setParent_ne _ _ _ _ hiw,
                NodeStore.get_alloc_old _ _ _ _ hi]
      have e : h.append p (a :: args) = (appendOne h p a).append p args := rfl
      rw [e, ih (appendOne h p a)
        (lt_of_lt_of_le hp (appendOne_size_le h p a))
        (lt_of_lt_of_le hi (appendOne_size_le h p a))
        (fun j hj => hnot j (List.mem_cons_of_mem a hj)), hstep]

theorem append_rec_stable (h : NodeStore) (p : ℕ) (args : List AppendArg)
    (i : ℕ) (hp : p < h.size) (hi : i < h.size) (hip : i ≠ p)
    (hnot : ∀ j, AppendArg.node j ∈ args → j ≠ i) :
    (h.append p args).get i = h.get i := by
  induction args generalizing h with
  | nil => rfl
  | cons a args ih =>
      have hstep : (appendOne h p a).get i = h.get i := by
        cases a with
        | null => rfl
        | node j =>
            have hji : j ≠ i := hnot j (List.mem_cons_self _ _)
            show ((h.setParent j p).pushChild p j).get i = _
            rw [NodeStore.get_pushChild_ne _ _ _ _ hip,
              NodeStore.get_setParent_ne _ _ _ _ (fun hc => hji hc.symm)]
        | str s =>
            have hiw : i ≠ h.size := fun hc => absurd (hc ▸ hi) (lt_irrefl _)
            show (((h.alloc s none).1.setParent h.size p).pushChild
              p h.size).get i = _
            rw [NodeStore.get_pushChild_ne _ _ _ _ hip,
              NodeStore.get_setParent_ne _ _ _ _ hiw,
              NodeStore.get_alloc_old _ _ _ _ hi]
      have e : h.append p (a :: args) = (appendOne h p a).append p args := rfl
      rw [e, ih (appendOne h p a)
        (lt_of_lt_of_le hp (appendOne_size_le h p a))
        (lt_of_lt_of_le hi (appendOne_size_le h p a))
        (fun j hj => hnot j (List.mem_cons_of_mem a hj)), hstep]

/-- C9 (amended): Node.append preserves the parent invariant provided
every Node-object argument is not yet attached as a child anywhere (and
the Node arguments are pairwise distinct objects); it skips None
arguments, wraps plain strings into fresh Node objects (name from the
string, no layer, no children), and extends the children of the
receiver, in argument order, by exactly one entry per non-None argument,
each appended child pointing back to the receiver through its parent
field. -/
theorem node_append_spec (h : NodeStore) (p : ℕ) (args : List AppendArg)
    (hp : p < h.size) (hpinv : parentInv h) (hwf : childrenWf h)
    (hfresh : ∀ i, AppendArg.node i ∈ args →
      i < h.size ∧ ∀ q, i ∉ (h.get q).children)
    (hdist : (args.filterMap argNodeId).Nodup) :
    parentInv (h.append p args) ∧
    childrenWf (h.append p args) ∧
    ∃ newIds : List ℕ,
      ((h.append p args).get p).children = (h.get p).children ++ newIds ∧
      newIds.length = (args.filter argKeep).length ∧
      List.Forall₂ (fun c a =>
          match a with
          | AppendArg.null => False
          | AppendArg.str s => (h.append p args).get c = ⟨s, none, some p, []⟩
          | AppendArg.node i => c = i ∧
              ((h.append p args).get c).parent = some p)
        newIds (args.filter argKeep) := by
  induction args generalizing h with
  | nil =>
      refine ⟨hpinv, hwf, [], by simp [NodeStore.append], rfl, ?_⟩
      simp [argKeep]
  | cons a args ih =>
      cases a with
      | null =>
          have e : h.append p (AppendArg.null :: args) = h.append p args := rfl
          have hfk : (AppendArg.null :: args).filter argKeep =
              args.filter argKeep := by
            simp [List.filter_cons, argKeep]
          have hfm : (AppendArg.null :: args).filterMap argNodeId =
              args.filterMap argNodeId := by
            simp [List.filterMap_cons, argNodeId]
          rw [e, hfk]
          exact ih h hp hpinv hwf
            (fun i hi => hfresh i (List.mem_cons_of_mem _ hi))
            (hfm ▸ hdist)
      | node i =>
          obtain ⟨hi, hfr⟩ := hfresh i (List.mem_cons_self _ _)
          obtain ⟨hsize2, hchp, hpar, hgetj, hchall, hpinv2, hwf2⟩ :=
            appendOne_node_spec h p i hp hi hfr hpinv hwf
          have hfm : (AppendArg.node i :: args).filterMap argNodeId =
              i :: args.filterMap argNodeId := by
            simp [List.filterMap_cons, argNodeId]
          have hinot : i ∉ args.filterMap argNodeId :=
            (List.nodup_cons.mp (hfm ▸ hdist)).1
          have hne : ∀ j, AppendArg.node j ∈ args → j ≠ i := by
            intro j hj hji
            exact hinot (hji ▸ (List.mem_filterMap.mpr ⟨AppendArg.node j, hj, rfl⟩))
          have hp2 : p < (appendOne h p (AppendArg.node i)).size :=
            hsize2 ▸ hp
          have hfresh2 : ∀ j, AppendArg.node j ∈ args →
              j < (appendOne h p (AppendArg.node i)).size ∧
              ∀ q, j ∉ ((appendOne h p (AppendArg.node i)).get q).children := by
            intro j hj
            obtain ⟨hjs, hjf⟩ := hfresh j (List.mem_cons_of_mem _ hj)
            refine ⟨hsize2 ▸ hjs, fun q hmem => ?_⟩
            rw [hchall q] at hmem
            by_cases hqp : q = p
            · rw [if_pos hqp] at hmem
              rcases List.mem_append.mp hmem with hm | hm
              · exact hjf q hm
              · exact hne j hj (by simpa using hm)
            · rw [if_neg hqp] at hmem
              exact hjf q hmem
          have hdist2 : (args.filterMap argNodeId).Nodup :=
            (List.nodup_cons.mp (hfm ▸ hdist)).2
          obtain ⟨hpinvF, hwfF, newIds', hch', hlen', hfa'⟩ :=
            ih (appendOne h p (AppendArg.node i)) hp2 hpinv2 hwf2 hfresh2 hdist2
          have e : h.append p (AppendArg.node i :: args) =
              (appendOne h p (AppendArg.node i)).append p args := rfl
          have hfk : (AppendArg.node i :: args).filter argKeep =
              AppendArg.node i :: args.filter argKeep := by
            simp [List.filter_cons, argKeep]
          rw [e, hfk]
          refine ⟨hpinvF, hwfF, i :: newIds', ?_, ?_, ?_⟩
          · rw [hch', hchp, List.append_assoc]
            rfl
          · simp [hlen']
          · refine List.Forall₂.cons ⟨rfl, ?_⟩ hfa'
            rw [append_parent_stable (appendOne h p (AppendArg.node i)) p args i
              hp2 (hsize2 ▸ hi) hne]
            exact hpar
      | str s =>
          obtain ⟨hsize2, hchp, hgetw, holdj, hchall, hpinv2, hwf2⟩ :=
            appendOne_str_spec h p s hp hpinv hwf
          have hfm : (AppendArg.str s :: args).filterMap argNodeId =
              args.filterMap argNodeId := by
            simp [List.filterMap_cons, argNodeId]
          have hp2 : p < (appendOne h p (AppendArg.str s)).size := by
            rw [hsize2]; exact Nat.lt_succ_of_lt hp
          have hwlt : h.size < (appendOne h p (AppendArg.str s)).size := by
            rw [hsize2]; exact Nat.lt_succ_self _
          have hfresh2 : ∀ j, AppendArg.node j ∈ args →
              j < (appendOne h p (AppendArg.str s)).size ∧
              ∀ q, j ∉ ((appendOne h p (AppendArg.str s)).get q).children := by
            intro j hj
            obtain ⟨hjs, hjf⟩ := hfresh j (List.mem_cons_of_mem _ hj)
            have hjw : j ≠ h.size := fun hc => absurd (hc ▸ hjs) (lt_irrefl _)
            refine ⟨by rw [hsize2]; exact Nat.lt_succ_of_lt hjs,
              fun q hmem => ?_⟩
            rw [hchall q] at hmem
            by_cases hqp : q = p
            · rw [if_pos hqp] at hmem
              rcases List.mem_append.mp hmem with hm | hm
              · exact hjf q hm
              · exact hjw (by simpa using hm)
            · rw [if_neg hqp] at hmem
              exact hjf q hmem
          obtain ⟨hpinvF, hwfF, newIds', hch', hlen', hfa'⟩ :=
            ih (appendOne h p (AppendArg.str s)) hp2 hpinv2 hwf2 hfresh2
              (hfm ▸ hdist)
          have e : h.append p (AppendArg.str s :: args) =
              (appendOne h p (AppendArg.str s)).append p args := rfl
          have hfk : (AppendArg.str s :: args).filter argKeep =
              AppendArg.str s :: args.filter argKeep := by
            simp [List.filter_cons, argKeep]
          rw [e, hfk]
          refine ⟨hpinvF, hwfF, h.size :: newIds', ?_, ?_, ?_⟩
          · rw [hch', hchp, List.append_assoc]
            rfl
          · simp [hlen']
          · refine List.Forall₂.cons ?_ hfa'
            have hnotw : ∀ j, AppendArg.node j ∈ args → j ≠ h.size := by
              intro j hj hjw
              obtain ⟨hjs, _⟩ := hfresh j (List.mem_cons_of_mem _ hj)
              exact absurd (hjw ▸ hjs) (lt_irrefl _)
            rw [append_rec_stable (appendOne h p (AppendArg.str s)) p args
              h.size hp2 hwlt (fun hc => absurd (hc ▸ hp) (lt_irrefl _)) hnotw]
            exact hgetw

/-- Three freshly constructed nodes a, b, c (ids 0, 1, 2). -/
def cexStore : NodeStore :=
  { recs := [⟨"a", none, none, []⟩, ⟨"b", none, none, []⟩,
      ⟨"c", none, none, []⟩] }

/-- Append node c to node a, then append the same node c to node b:
exactly the calls a.append(c); b.append(c) on live Node objects. -/
def cexStore2 : NodeStore :=
  (cexStore.append 0 [AppendArg.node 2]).append 1 [AppendArg.node 2]

/-- C9 counterexample: after a.append(c) and b.append(c), node c is
still recorded among the children of a while c.parent has been
reassigned to b, so a tree built through Node.__init__ and Node.append
alone does not always satisfy the parent invariant. -/
theorem node_append_parent_counterexample :
    2 ∈ (cexStore2.get 0).children ∧
    (cexStore2.get 2).parent = some 1 ∧
    ¬ parentInv cexStore2 := by
  refine ⟨by decide, by decide, fun hinv => ?_⟩
  have h1 := hinv 0 2 (by decide)
  exact absurd h1 (by decide)

/-- A store holding a root node and one detached node x. -/
def sampleStore : NodeStore :=
  { recs := [⟨"root", none, none, []⟩, ⟨"x", none, none, []⟩] }

/-- The arguments of a sample append call: None (skipped), the plain
string "leaf" (wrapped), and the detached node x. -/
def sampleArgs : List AppendArg :=
  [AppendArg.null, AppendArg.str ("leaf"), AppendArg.node 1]

/-- C9 witness: appending None, a string and a detached node to the
root of the sample store keeps the parent invariant. -/
theorem node_append_spec_witness :
    parentInv (sampleStore.append 0 sampleArgs) := by
  have hnil : ∀ q, (sampleStore.get q).children = [] := by
    intro q
    match q with
    | 0 => rfl
    | 1 => rfl
    | n + 2 => rfl
  refine (node_append_spec sampleStore 0 sampleArgs (by decide) ?_ ?_ ?_
    (by decide)).1
  · intro q c hc
    rw [hnil q] at hc
    exact absurd hc (List.not_mem_nil c)
  · intro q c hc
    rw [hnil q] at hc
    exact absurd hc (List.not_mem_nil c)
  · intro j hj
    have hj1 : j = 1 := by
      simpa [sampleArgs] using hj
    subst hj1
    exact ⟨by decide, fun q => by rw [hnil q]; exact List.not_mem_nil 1⟩

/-- Characters after the last slash: os.path.basename. -/
def basenameChars (cs : List Char) : List Char :=
  (cs.reverse.takeWhile (fun c => c != '/')).reverse

/-- os.path.dirname: everything up to the last slash, with trailing
slashes stripped unless the head consists only of slashes. -/
def dirnameChars (cs : List Char) : List Char :=
  let head := (cs.reverse.dropWhile (fun c => c != '/')).reverse
  if head.isEmpty then []
  else if head.all (fun c => c == '/') then head
  else (head.reverse.dropWhile (fun c => c == '/')).reverse

/-- os.path.join of a directory and a file name: the file name alone
when absolute or when the directory is empty, otherwise the two joined
with a single separator. -/
def joinPath (d f : List Char) : List Char :=
  match f with
  | '/' :: _ => f
  | _ =>
      if d.isEmpty then f
      else if d.getLastD ' ' = '/' then d ++ f
      else d ++ '/' :: f

/-- The root part of os.path.splitext: the extension starts at the last
dot that comes after the last slash, provided a character other than a
dot stands between them (leading dots of the basename never start an
extension). -/
def splitextRoot (cs : List Char) : List Char :=
  match cs.reverse.dropWhile (fun c => c != '.' && c != '/') with
  | '.' :: rest =>
      if (rest.takeWhile (fun c => c != '/')).any (fun c => c != '.') then
        rest.reverse
      else cs
  | _ => cs

/-- The base used by the metadata pattern of _last_metadata:
os.path.basename(os.path.splitext(project.fileName())[0]). -/
def metadataBase (projectFileName : String) : List Char :=
  basenameChars (splitextRoot projectFileName.data)

/-- int applied to the ten captured digits of the metadata pattern. -/
def digitsVal (ds : List Char) : ℕ :=
  ds.foldl (fun n c => 10 * n + (c.toNat - '0'.toNat)) 0

/-- re.match of the compiled pattern re.escape(base) + underscore, ten
digits in a capture group, and a literal ".meta": re.match anchors at
the start of the file name only, so trailing characters after ".meta"
are accepted.  Returns the captured timestamp. -/
def matchMeta (base fname : List Char) : Option ℕ :=
  if fname.take base.length = base then
    match fname.drop base.length with
    | '_' :: rest =>
        if (rest.take 10).length = 10 ∧ (rest.take 10).all Char.isDigit then
          if (rest.drop 10).take 5 = ['.', 'm', 'e', 't', 'a'] then
            some (digitsVal (rest.take 10))
          else none
        else none
    | _ => none
  else none

/-- filename.endswith(".meta"). -/
def endsWithMeta (cs : List Char) : Bool :=
  decide (cs.reverse.take 5 = ['a', 't', 'e', 'm', '.'])

/-- The filesystem as observed by _last_metadata: the project file
name, the listing of its directory, and the readable files (None when a
path does not exist; the raw document stands for its JSON parse, which
is a host library call outside this embedding). -/
structure FsState where
  projectFileName : String
  dirEntries : List String
  fileContent : String → Option String

/-- The loop of _last_metadata collecting (timestamp, filename) pairs
for every directory entry that ends with ".meta" and matches the
metadata pattern. -/
def matchedMetaFiles (fs : FsState) : List (ℕ × String) :=
  fs.dirEntries.filterMap (fun filename =>
    if endsWithMeta filename.data then
      (matchMeta (metadataBase fs.projectFileName) filename.data).map
        (fun ts => (ts, filename))
    else none)

/-- Lexicographic comparison of character lists by code point: the
Python string order. -/
def charListLt : List Char → List Char → Bool
  | [], [] => false
  | [], _ :: _ => true
  | _ :: _, [] => false
  | a :: as, b :: bs =>
      if a < b then true
      else if b < a then false
      else charListLt as bs

/-- The strict Python tuple order on (timestamp, filename) pairs. -/
def pairGtBool (a b : ℕ × String) : Bool :=
  decide (b.1 < a.1) || (decide (a.1 = b.1) && charListLt b.2.data a.2.data)

/-- sorted(matched_metadata_files, reverse=True)[0]: the greatest pair
under the tuple order (greatest timestamp, ties broken by the greatest
filename), computed as a running maximum; None on the empty list. -/
def selectBest : List (ℕ × String) → Option (ℕ × String)
  | [] => none
  | p :: ps =>
      some (ps.foldl (fun best q => if pairGtBool q best then q else best) p)

/-- WebGisPlugin._last_metadata: pick the matching metadata file with
the greatest (timestamp, filename) pair and return the content of the
joined path (None when nothing matched, or when the chosen path does
not exist). -/
def last_metadata (fs : FsState) : Option String :=
  match selectBest (matchedMetaFiles fs) with
  | none => none
  | some best =>
      fs.fileContent
        (String.mk (joinPath (dirnameChars fs.projectFileName.data)
          best.2.data))

/-- The full-name reading of the metadata pattern: the file name is
exactly the base, an underscore, ten digits and the ".meta" extension,
with nothing after it. -/
def fullMetaName (base fname : List Char) : Prop :=
  ∃ ds : List Char, ds.length = 10 ∧ (∀ c ∈ ds, c.isDigit = true) ∧
    fname = base ++ '_' :: (ds ++ ['.', 'm', 'e', 't', 'a'])

/-- The prefix reading actually implemented by re.match: the file name
starts with the base, an underscore, ten digits and ".meta", and may
continue arbitrarily; the timestamp is the value of the digits. -/
def prefixMetaName (base fname : List Char) (ts : ℕ) : Prop :=
  ∃ ds rest : List Char, ds.length = 10 ∧ (∀ c ∈ ds, c.isDigit = true) ∧
    fname = base ++ '_' :: (ds ++ ('.' :: 'm' :: 'e' :: 't' :: 'a' :: rest)) ∧
    ts = digitsVal ds

theorem matchMeta_iff (base fname : List Char) (ts : ℕ) :
    matchMeta base fname = some ts ↔ prefixMetaName base fname ts := by
  constructor
  · intro h
    rw [matchMeta] at h
    split at h
    · rename_i h1
      split at h
      · rename_i rest hd
        split at h
        · rename_i hds
          split at h
          · rename_i hmeta
            injection h with hts
            refine ⟨rest.take 10, (rest.drop 10).drop 5, hds.1,
              List.all_eq_true.mp hds.2, ?_, hts.symm⟩
            have e1 : fname = base ++ fname.drop base.length := by
              conv_lhs => rw [← List.take_append_drop base.length fname]
              rw [h1]
            have e2 : rest = rest.take 10 ++
                ('.' :: 'm' :: 'e' :: 't' :: 'a' :: ((rest.drop 10).drop 5)) := by
              conv_lhs => rw [← List.take_append_drop 10 rest]
              congr 1
              conv_lhs => rw [← List.take_append_drop 5 (rest.drop 10)]
              rw [hmeta]
              rfl
            rw [e1, hd]
            congr 2
          · exact absurd h (by simp)
        · exact absurd h (by simp)
      · exact absurd h (by simp)
    · exact absurd h (by simp)
  · rintro ⟨ds, rest, hlen, hdig, hshape, hts⟩
    subst hshape
    subst hts
    rw [matchMeta]
    rw [if_pos (List.take_left base _), List.drop_left]
    show (if (((ds ++ _).take 10).length = 10 ∧ ((ds ++ _).take 10).all Char.isDigit)
      then _ else none) = _
    have e4 : (ds ++ ('.' :: 'm' :: 'e' :: 't' :: 'a' :: rest)).take 10 = ds :=
      List.take_left' hlen
    have e5 : (ds ++ ('.' :: 'm' :: 'e' :: 't' :: 'a' :: rest)).drop 10 =
        '.' :: 'm' :: 'e' :: 't' :: 'a' :: rest :=
      List.drop_left' hlen
    rw [e4, e5]
    rw [if_pos ⟨hlen, List.all_eq_true.mpr hdig⟩]
    rw [if_pos (by rfl)]

theorem mem_matchedMetaFiles (fs : FsState) (ts : ℕ) (f : String) :
    (ts, f) ∈ matchedMetaFiles fs ↔
      f ∈ fs.dirEntries ∧ endsWithMeta f.data = true ∧
        prefixMetaName (metadataBase fs.projectFileName) f.data ts := by
  rw [matchedMetaFiles]
  simp only [List.mem_filterMap]
  constructor
  · rintro ⟨g, hg, hmap⟩
    by_cases he : endsWithMeta g.data
    · rw [if_pos he, Option.map_eq_some'] at hmap
      obtain ⟨ts', hm, heq⟩ := hmap
      have hgf : g = f := congrArg Prod.snd heq
      have hts : ts' = ts := congrArg Prod.fst heq
      subst hgf
      subst hts
      exact ⟨hg, he, (matchMeta_iff _ _ _).mp hm⟩
    · rw [if_neg he] at hmap
      exact absurd hmap (by simp)
  · rintro ⟨hf, he, hpm⟩
    refine ⟨f, hf, ?_⟩
    rw [if_pos he, (matchMeta_iff _ _ _).mpr hpm]
    rfl

theorem charListLt_irrefl (a : List Char) : charListLt a a = false := by
  induction a with
  | nil => rfl
  | cons x as ih =>
      rw [charListLt, if_neg (lt_irrefl x), if_neg (lt_irrefl x)]
      exact ih

theorem charListLt_trans (a b c : List Char) (hab : charListLt a b = true)
    (hbc : charListLt b c = true) : charListLt a c = true := by
  induction a generalizing b c with
  | nil =>
      cases b with
      | nil => exact absurd hab (by rw [charListLt_irrefl]; simp)
      | cons y bs =>
          cases c with
          | nil => exact absurd hbc (by rw [charListLt]; simp)
          | cons z cs => rfl
  | cons x as ih =>
      cases b with
      | nil => exact absurd hab (by rw [charListLt]; simp)
      | cons y bs =>
          cases c with
          | nil => exact absurd hbc (by rw [charListLt]; simp)
          | cons z cs =>
              rw [charListLt] at hab hbc ⊢
              rcases lt_trichotomy x y with hxy | hxy | hxy
              · rcases lt_trichotomy y z with hyz | hyz | hyz
                · rw [if_pos (lt_trans hxy hyz)]
                · rw [if_pos (hyz ▸ hxy)]
                · rw [if_neg (asymm hyz), if_pos hyz] at hbc
                  exact absurd hbc (by simp)
              · subst hxy
                rcases lt_trichotomy x z with hyz | hyz | hyz
                · rw [if_pos hyz]
                · subst hyz
                  rw [if_neg (lt_irrefl x), if_neg (lt_irrefl x)] at hab hbc ⊢
                  exact ih bs cs hab hbc
                · rw [if_neg (asymm hyz), if_pos hyz] at hbc
                  exact absurd hbc (by simp)
              · rw [if_neg (asymm hxy), if_pos hxy] at hab
                exact absurd hab (by simp)

theorem charListLt_total (a b : List Char) (hne : a ≠ b) :
    charListLt a b = true ∨ charListLt b a = true := by
  induction a generalizing b with
  | nil =>
      cases b with
      | nil => exact absurd rfl hne
      | cons y bs => exact Or.inl rfl
  | cons x as ih =>
      cases b with
      | nil => exact Or.inr rfl
      | cons y bs =>
          rcases lt_trichotomy x y with hxy | hxy | hxy
          · exact Or.inl (by rw [charListLt, if_pos hxy])
          · subst hxy
            have hne2 : as ≠ bs := fun hc => hne (by rw [hc])
            rcases ih bs hne2 with h | h
            · exact Or.inl (by
                rw [charListLt, if_neg (lt_irrefl x), if_neg (lt_irrefl x)]
                exact h)
            · exact Or.inr (by
                rw [charListLt, if_neg (lt_irrefl x), if_neg (lt_irrefl x)]
                exact h)
          · exact Or.inr (by rw [charListLt, if_pos hxy])

theorem pairGtBool_irrefl (a : ℕ × String) : pairGtBool a a = false := by
  rw [pairGtBool, charListLt_irrefl]
  simp

theorem pairGtBool_trans (a b c : ℕ × String) (hab : pairGtBool a b = true)
    (hbc : pairGtBool b c = true) : pairGtBool a c = true := by
  rw [pairGtBool] at hab hbc ⊢
  simp only [Bool.or_eq_true, Bool.and_eq_true, decide_eq_true_eq] at hab hbc ⊢
  rcases hab with h1 | ⟨h1, h2⟩ <;> rcases hbc with h3 | ⟨h3, h4⟩
  · exact Or.inl (lt_trans h3 h1)
  · exact Or.inl (h3 ▸ h1)
  · exact Or.inl (h1 ▸ h3)
  · exact Or.inr ⟨h1.trans h3, charListLt_trans _ _ _ h4 h2⟩

theorem pairGtBool_total (a b : ℕ × String) (hne : a ≠ b) :
    pairGtBool a b = true ∨ pairGtBool b a = true := by
  rw [pairGtBool, pairGtBool]
  simp only [Bool.or_eq_true, Bool.and_eq_true, decide_eq_true_eq]
  rcases lt_trichotomy a.1 b.1 with h | h | h
  · exact Or.inr (Or.inl h)
  · have hne2 : a.2.data ≠ b.2.data := by
      intro hc
      apply hne
      have hs : a.2 = b.2 := by
        cases ha : a.2
        cases hb : b.2
        rw [ha, hb] at hc
        exact congrArg String.mk hc
      exact Prod.ext h hs
    rcases charListLt_total a.2.data b.2.data hne2 with hlt | hlt
    · exact Or.inr (Or.inr ⟨h.symm, hlt⟩)
    · exact Or.inl (Or.inr ⟨h, hlt⟩)
  · exact Or.inl (Or.inl h)

theorem foldlBest_spec (ps : List (ℕ × String)) : ∀ p : ℕ × String,
    (ps.foldl (fun best q => if pairGtBool q best then q else best) p = p ∨
      ps.foldl (fun best q => if pairGtBool q best then q else best) p ∈ ps) ∧
    pairGtBool p
      (ps.foldl (fun best q => if pairGtBool q best then q else best) p) =
      false ∧
    ∀ r ∈ ps,
      pairGtBool r
        (ps.foldl (fun best q => if pairGtBool q best then q else best) p) =
        false := by
  induction ps with
  | nil =>
      intro p
      exact ⟨Or.inl rfl, pairGtBool_irrefl p, by simp⟩
  | cons q ps ih =>
      intro p
      rw [List.foldl_cons]
      by_cases hqp : pairGtBool q p = true
      · rw [if_pos hqp]
        obtain ⟨hmem, hself, hall⟩ := ih q
        refine ⟨?_, ?_, ?_⟩
        · rcases hmem with hm | hm
          · refine Or.inr ?_
            rw [hm]
            exact List.mem_cons_self q ps
          · exact Or.inr (List.mem_cons_of_mem q hm)
        · cases hc : pairGtBool p
            (ps.foldl (fun best q => if pairGtBool q best then q else best) q) with
          | false => rfl
          | true =>
              have := pairGtBool_trans q p _ hqp hc
              rw [this] at hself
              exact hself
        · intro r hr
          rcases List.mem_cons.mp hr with hrq | hr2
          · exact hrq ▸ hself
          · exact hall r hr2
      · rw [if_neg hqp]
        obtain ⟨hmem, hself, hall⟩ := ih p
        refine ⟨?_, hself, ?_⟩
        · rcases hmem with hm | hm
          · exact Or.inl hm
          · exact Or.inr (List.mem_cons_of_mem q hm)
        · intro r hr
          rcases List.mem_cons.mp hr with hrq | hr2
          · subst hrq
            by_cases hrp : r = p
            · exact hrp ▸ hself
            · rcases pairGtBool_total r p hrp with hgt | hgt
              · exact absurd hgt hqp
              · cases hc : pairGtBool r
                  (ps.foldl (fun best q => if pairGtBool q best then q else best) p) with
                | false => rfl
                | true =>
                    have := pairGtBool_trans p r _ hgt hc
                    rw [this] at hself
                    exact hself
          · exact hall r hr2

theorem selectBest_max (l : List (ℕ × String)) (b : ℕ × String)
    (h : selectBest l = some b) :
    b ∈ l ∧ ∀ q ∈ l, pairGtBool q b = false := by
  cases l with
  | nil => exact absurd h (by rw [selectBest]; simp)
  | cons p ps =>
      rw [selectBest, Option.some.injEq] at h
      obtain ⟨hmem, hself, hall⟩ := foldlBest_spec ps p
      subst h
      constructor
      · rcases hmem with hm | hm
        · rw [hm]
          exact List.mem_cons_self _ _
        · exact List.mem_cons_of_mem p hm
      · intro r hr
        rcases List.mem_cons.mp hr with hrp | hr2
        · exact hrp ▸ hself
        · exact hall r hr2

/-- C8 (amended): _last_metadata collects exactly the directory entries
that end with ".meta" and whose name starts with the project base name,
an underscore, a 10-digit timestamp and ".meta" (re.match anchors at
the start only, so trailing characters are accepted); it returns None
when nothing is collected, and otherwise returns the document of the
collected file with the numerically greatest timestamp (ties broken by
the lexicographically greatest filename), read from the directory of
the project file. -/
theorem last_metadata_spec (fs : FsState) :
    (∀ ts f, (ts, f) ∈ matchedMetaFiles fs ↔
      f ∈ fs.dirEntries ∧ endsWithMeta f.data = true ∧
        prefixMetaName (metadataBase fs.projectFileName) f.data ts) ∧
    (matchedMetaFiles fs = [] → last_metadata fs = none) ∧
    (∀ b, selectBest (matchedMetaFiles fs) = some b →
      b ∈ matchedMetaFiles fs ∧
      (∀ q ∈ matchedMetaFiles fs, pairGtBool q b = false) ∧
      last_metadata fs =
        fs.fileContent
          (String.mk (joinPath (dirnameChars fs.projectFileName.data)
            b.2.data))) := by
  refine ⟨fun ts f => mem_matchedMetaFiles fs ts f, fun hnil => ?_, fun b hb => ?_⟩
  · rw [last_metadata, hnil]
    rfl
  · obtain ⟨hmem, hmax⟩ := selectBest_max _ b hb
    refine ⟨hmem, hmax, ?_⟩
    rw [last_metadata, hb]

/-- A project directory with one stale-looking file whose name is not
of the exact form base_timestamp.meta but begins with such a form. -/
def cexFs : FsState :=
  { projectFileName := "proj.qgs",
    dirEntries := ["proj_1234567890.metaXX.meta"],
    fileContent := fun path =>
      if path = "proj_1234567890.metaXX.meta" then some ("stale") else none }

/-- C8 counterexample: no entry of the directory is named exactly as the
base name followed by an underscore, ten digits and the ".meta"
extension, yet _last_metadata returns a document rather than None,
because re.match also accepts the longer name
proj_1234567890.metaXX.meta whose prefix matches the pattern. -/
theorem last_metadata_counterexample :
    (∀ f ∈ cexFs.dirEntries,
      ¬ fullMetaName (metadataBase cexFs.projectFileName) f.data) ∧
    last_metadata cexFs = some ("stale") := by
  constructor
  · intro f hf
    have hf1 : f = "proj_1234567890.metaXX.meta" := by
      simpa [cexFs] using hf
    subst hf1
    rintro ⟨ds, hlen, -, hshape⟩
    have h27 : ("proj_1234567890.metaXX.meta" : String).data.length = 27 := rfl
    have hb4 : (metadataBase cexFs.projectFileName).length = 4 := rfl
    rw [hshape] at h27
    simp [List.length_append, List.length_cons, hlen, hb4] at h27
  · rfl

/-- A project directory holding two published metadata files and an
unrelated file; the content map returns the document of the newer
metadata file at its joined path. -/
def sampleFs : FsState :=
  { projectFileName := "/home/user/proj.qgs",
    dirEntries := ["proj_1111111111.meta", "notes.txt",
      "proj_2222222222.meta"],
    fileContent := fun path =>
      if path = "/home/user/proj_2222222222.meta" then some ("docNew")
      else none }

/-- C8 witness: on the sample directory the newer metadata file
proj_2222222222.meta is collected and chosen, and _last_metadata
returns its document. -/
theorem last_metadata_spec_witness :
    (2222222222, "proj_2222222222.meta") ∈ matchedMetaFiles sampleFs ∧
    last_metadata sampleFs = some ("docNew") := by
  obtain ⟨hmem, hmax, hres⟩ := (last_metadata_spec sampleFs).2.2
    (2222222222, "proj_2222222222.meta") (by rfl)
  exact ⟨hmem, by rw [hres]; rfl⟩
